import Mathlib

/-!
Shallow embedding of the two source units of the Openstack-Anvil fragment:

* `devstack/utils.py` — shared utility module (dependency resolution,
  parameter substitution, component-expression parsing, manifest merging,
  package-manager selection).
* `anvil/components/keystone.py` — identity-service component driver
  (post-start initialization hook, environment exports).

Python dicts are modelled as association lists with first-match lookup and
in-place update (`dget`/`dset`), Python sets as `Finset String`, fallible
code as `Except String`.  External boundaries (constants tables, shell,
yaml, helper bundles) are modelled as explicit parameters or record fields.
-/

/-- Python `dict.get`: first-match lookup in an association list. -/
def dget {α β : Type} [DecidableEq α] : List (α × β) → α → Option β
  | [], _ => none
  | (k0, v0) :: rest, k => if k0 = k then some v0 else dget rest k

/-- Python `d[k] = v` on a dict modelled as an association list: replace the
value at the first occurrence of the key, or append a fresh binding. -/
def dset {α β : Type} [DecidableEq α] : List (α × β) → α → β → List (α × β)
  | [], k, v => [(k, v)]
  | (k0, v0) :: rest, k, v =>
      if k0 = k then (k0, v) :: rest else (k0, v0) :: dset rest k v

theorem dget_mem {α β : Type} [DecidableEq α] {d : List (α × β)} {k : α} {v : β}
    (h : dget d k = some v) : (k, v) ∈ d := by
  induction d with
  | nil => simp [dget] at h
  | cons p rest ih =>
      obtain ⟨k0, v0⟩ := p
      by_cases hk : k0 = k
      · subst hk
        simp [dget] at h
        subst h
        exact List.mem_cons_self _ _
      · simp [dget, hk] at h
        exact List.mem_cons_of_mem _ (ih h)

theorem dget_dset_self {α β : Type} [DecidableEq α] (d : List (α × β)) (k : α) (v : β) :
    dget (dset d k v) k = some v := by
  induction d with
  | nil => simp [dset, dget]
  | cons p rest ih =>
      obtain ⟨k0, v0⟩ := p
      by_cases hk : k0 = k
      · simp [dset, dget, hk]
      · simp [dset, dget, hk, ih]

theorem dget_dset_ne {α β : Type} [DecidableEq α] (d : List (α × β)) (k k' : α) (v : β)
    (h : k' ≠ k) : dget (dset d k v) k' = dget d k' := by
  induction d with
  | nil =>
      simp [dset, dget]
      exact fun hh => absurd hh.symm h
  | cons p rest ih =>
      obtain ⟨k0, v0⟩ := p
      by_cases hk : k0 = k
      · subst hk
        have hne : ¬ k0 = k' := fun hh => h hh.symm
        simp [dset, dget, hne]
      · simp [dset, dget, hk, ih]

/-- Lexicographic order on code points, as Python compares `str` values. -/
def lexLe : List Char → List Char → Bool
  | [], _ => true
  | _ :: _, [] => false
  | a :: as, b :: bs => if a < b then true else if a = b then lexLe as bs else false

/-- The order `lexLe` lifted to strings. -/
def strLe (a b : String) : Bool := lexLe a.data b.data

/-- Insert a string into an already sorted list (helper for `sortStrings`). -/
def insertSorted (s : String) : List String → List String
  | [] => [s]
  | x :: xs => if strLe s x then s :: x :: xs else x :: insertSorted s xs

/-- Python `sorted` on a list of strings (insertion sort; only membership and
length matter for the claims). -/
def sortStrings : List String → List String
  | [] => []
  | x :: xs => insertSorted x (sortStrings xs)

theorem mem_insertSorted {a s : String} {l : List String} :
    a ∈ insertSorted s l ↔ a = s ∨ a ∈ l := by
  induction l with
  | nil => simp [insertSorted]
  | cons x xs ih =>
      by_cases h : strLe s x
      · simp [insertSorted, h]
      · simp [insertSorted, h, ih]
        tauto

theorem mem_sortStrings {a : String} {l : List String} :
    a ∈ sortStrings l ↔ a ∈ l := by
  induction l with
  | nil => simp [sortStrings]
  | cons x xs ih => simp [sortStrings, mem_insertSorted, ih]

theorem length_insertSorted (s : String) (l : List String) :
    (insertSorted s l).length = l.length + 1 := by
  induction l with
  | nil => simp [insertSorted]
  | cons x xs ih =>
      by_cases h : strLe s x
      · simp [insertSorted, h]
      · simp [insertSorted, h, ih]

theorem length_sortStrings (l : List String) :
    (sortStrings l).length = l.length := by
  induction l with
  | nil => simp [sortStrings]
  | cons x xs ih => simp [sortStrings, length_insertSorted, ih]

/-- A dependency table: the external `constants.COMPONENT_DEPENDENCIES` dict,
mapping a component name to the list of components it depends on. -/
abbrev DepTable := List (String × List String)

/-- Embedding of `utils.get_dependencies`: the sorted dependency list of a component, or
the empty list when the component has no entry in the table. -/
def get_dependencies (table : DepTable) (component : String) : List String :=
  sortStrings ((dget table component).getD [])

/-- One pass of the inner `for c in component_deps` loop of
`utils.resolve_dependencies`: append to the work list each dependency that is
neither in the result set nor already queued, checking against the work list
as it grows (Python appends to `active_components` while iterating). -/
def pushDeps (table : DepTable) (new_components : Finset String) :
    List String → List String → List String
  | active, [] => active
  | active, c :: cs =>
      if c ∈ new_components ∨ c ∈ active then pushDeps table new_components active cs
      else pushDeps table new_components (active ++ [c]) cs

/-- The `while len(active_components)` loop of `utils.resolve_dependencies`,
with an explicit fuel argument (the Python loop has no structural measure;
`resolveLoop_isSome` below shows the fuel computed by `resolve_dependencies`
is always sufficient).  `pop()` removes the LAST element of the work list. -/
def resolveLoop (table : DepTable) :
    Nat → List String → Finset String → Option (Finset String)
  | _, [], new_components => some new_components
  | 0, _ :: _, _ => none
  | fuel + 1, a :: as, new_components =>
      let curr := (a :: as).getLast (by simp)
      let rest := (a :: as).dropLast
      let deps := get_dependencies table curr
      let added : Finset String := insert curr new_components
      resolveLoop table fuel (pushDeps table added rest deps) added

/-- All strings that can ever sit in the work list: the initial components
plus every dependency value of the table. -/
def depUniverse (table : DepTable) (components : List String) : Finset String :=
  components.toFinset ∪ table.foldr (fun p s => p.2.toFinset ∪ s) ∅

/-- Upper bound on the length of any `get_dependencies` result. -/
def maxDepsLen (table : DepTable) : Nat :=
  table.foldr (fun p m => max p.2.length m) 0

/-- Fuel that `resolveLoop_isSome` proves sufficient for `resolveLoop`. -/
def resolveFuel (table : DepTable) (components : List String) : Nat :=
  (depUniverse table components).card * (maxDepsLen table + 1) + components.length + 1

/-- Embedding of `utils.resolve_dependencies`: transitive dependency closure of the input
component list.  The Python `while` loop is run with the fuel computed by
`resolveFuel`; `resolveLoop_isSome` below proves that fuel sufficient, so the
`getD` default is never taken (see the termination theorem for C8). -/
def resolve_dependencies (table : DepTable) (components : List String) : Finset String :=
  (resolveLoop table (resolveFuel table components) components ∅).getD ∅

/-- ASCII `\w` (equivalently `[\w\d]`) of the Python 2 `re` module on `str`
input: letters, digits and underscore. -/
def wordChar (c : Char) : Bool :=
  ('a' ≤ c && c ≤ 'z') || ('A' ≤ c && c ≤ 'Z') || ('0' ≤ c && c ≤ '9') || c == '_'

/-- Embedding of `PARAM_SUB_REGEX.sub(replacer, text)` with the pattern `%([\w\d]+?)%`,
written as a one-pass scanner.  The scanner is equivalent to the regex engine
because `%` is not a word character: a match is exactly `%`, a nonempty run of
word characters, `%`; on a failed match attempt the engine emits the single
character at the attempt position and retries at the next position, and no
character of a failed attempt other than its opening `%` can itself open a
match.  The first argument is `none` outside a candidate placeholder and
`some w` after an opening `%` with word characters `w` read so far.  The
`replacer` body: a found name is substituted by its replacement; a missing
name is kept verbatim when `ignore_missing` is set and raises
`NoReplacementException` otherwise. -/
def paramSub (reps : List (String × String)) (ig : Bool) :
    Option (List Char) → List Char → Except String (List Char)
  | none, [] => Except.ok []
  | none, c :: rest =>
      if c = '%' then paramSub reps ig (some []) rest
      else (paramSub reps ig none rest).map (fun t => c :: t)
  | some w, [] => Except.ok ('%' :: w)
  | some w, c :: rest =>
      if wordChar c then paramSub reps ig (some (w ++ [c])) rest
      else if c = '%' then
        if w = [] then (paramSub reps ig (some []) rest).map (fun t => '%' :: t)
        else
          match dget reps (String.mk w) with
          | some v => (paramSub reps ig none rest).map (fun t => v.data ++ t)
          | none =>
            if ig then (paramSub reps ig none rest).map (fun t => '%' :: (w ++ '%' :: t))
            else Except.error ("No replacement found for parameter %" ++ String.mk w ++ "%")
      else (paramSub reps ig none rest).map (fun t => '%' :: (w ++ c :: t))

/-- Embedding of `utils.param_replace`: an empty replacement dict or an empty template is
returned unchanged without scanning; otherwise every `%NAME%` placeholder is
substituted, and an unresolved placeholder raises unless `ignore_missing`. -/
def param_replace (text : String) (replacements : List (String × String))
    (ignore_missing : Bool) : Except String String :=
  if replacements = [] then Except.ok text
  else if text.data = [] then Except.ok text
  else (paramSub replacements ignore_missing none text.data).map String.mk

/-- Python `\s` on ASCII `str` input. -/
def pySpace (c : Char) : Bool :=
  c == ' ' || c == '\t' || c == '\n' || c == '\r' || c == '\x0b' || c == '\x0c'

/-- A character matched by `[\w-]` (component-name characters). -/
def wordDash (c : Char) : Bool := wordChar c || c == '-'

/-- Python `str.strip()`: drop leading and trailing whitespace. -/
def pyStrip (l : List Char) : List Char :=
  ((l.dropWhile pySpace).reverse.dropWhile pySpace).reverse

/-- The anchored match `EXT_COMPONENT = ^\s*([\w-]+)(?:\((.*)\))?\s*$` of
`utils.parse_components`, returning (group 1, group 2).  After the leading
whitespace and the maximal `[\w-]+` run (no shorter run can succeed, since
the following character would then be a word/dash character, which can start
neither `\(` nor `\s*$`), the remainder stripped of trailing whitespace must
be empty (no options group) or `( ... )`; the greedy `(.*)` makes group 2
run to the last `)`. -/
def matchComponent (s : List Char) : Option (List Char × Option (List Char)) :=
  let s1 := s.dropWhile pySpace
  let name := s1.takeWhile wordDash
  let rest := s1.dropWhile wordDash
  if name = [] then none
  else
    let rt := (rest.reverse.dropWhile pySpace).reverse
    match rt with
    | [] => some (name, none)
    | '(' :: mid =>
        match mid.getLast? with
        | some ')' => some (name, some mid.dropLast)
        | _ => none
    | _ :: _ => none

/-- Python `str.split(",")`: split at every comma, keeping empty pieces. -/
def splitComma : List Char → List (List Char)
  | [] => [[]]
  | c :: rest =>
      if c = ',' then [] :: splitComma rest
      else
        match splitComma rest with
        | [] => [[c]]
        | g :: gs => (c :: g) :: gs

/-- Embedding of `utils.parse_components`: map raw `name` / `name(opt1,opt2,...)` entries
to lowercased names with trimmed non-empty options; unknown and unparseable
entries are dropped (with a warning); `None` input means the empty list; if
nothing was accepted and `assume_all` is set, every registered component name
maps to an empty option list.  `component_names` models the external
`constants.COMPONENT_NAMES` registry. -/
def parse_components (components : Option (List String)) (assume_all : Bool)
    (component_names : List String) : List (String × List String) :=
  let comps := components.getD []
  let adjusted := comps.foldl (fun adjusted c =>
    match matchComponent c.data with
    | some (name, opts) =>
        let component_name := String.mk (pyStrip (name.map Char.toLower))
        if component_name ∈ component_names then
          let cleaned : List String :=
            match opts with
            | none => []
            | some o =>
                if o = [] then []
                else (((splitComma o).map pyStrip).filter (fun x => ¬ x = [])).map String.mk
          dset adjusted component_name cleaned
        else adjusted
    | none => adjusted) []
  if adjusted = [] ∧ assume_all then
    component_names.foldl (fun m c => dset m c []) []
  else adjusted

/-- A JSON value inside a package-manifest entry: the fields the merge rule
distinguishes are action lists (lists of command strings) versus any other
scalar field, modelled as a string. -/
inductive PkgVal where
  | str : String → PkgVal
  | list : List String → PkgVal
deriving DecidableEq

/-- A package entry: field name to value. -/
abbrev PkgInfo := List (String × PkgVal)

/-- A per-distro package dict: package name to entry. -/
abbrev PkgSet := List (String × PkgInfo)

/-- One loaded manifest file: distro identifier to package dict. -/
abbrev PkgManifest := List (String × PkgSet)

/-- Modelled from the spec: `constants.PRE_INSTALL` (constants.py is not
among the provided sources; §3 and the testable properties name the
pre-install action-list field `pre_install`). -/
def PRE_INSTALL : String := "pre_install"

/-- Modelled from the spec: `constants.POST_INSTALL` (constants.py is not
among the provided sources). -/
def POST_INSTALL : String := "post_install"

/-- Python truthiness of a manifest value. -/
def pvTruthy : PkgVal → Bool
  | PkgVal.str s => !(s == "")
  | PkgVal.list l => !l.isEmpty

/-- Python `+` on two manifest values: list + list concatenates, str + str
concatenates, a mixed application raises `TypeError` (modelled as `none`). -/
def pvAdd : PkgVal → PkgVal → Option PkgVal
  | PkgVal.list a, PkgVal.list b => some (PkgVal.list (a ++ b))
  | PkgVal.str a, PkgVal.str b => some (PkgVal.str (a ++ b))
  | _, _ => none

/-- Embedding of `oldpkginfo.get(infokey) or []` in `utils.get_pkg_list`. -/
def oldInstallList (oldpkginfo : PkgInfo) (infokey : String) : PkgVal :=
  match dget oldpkginfo infokey with
  | some v => if pvTruthy v then v else PkgVal.list []
  | none => PkgVal.list []

/-- The `for (infokey, infovalue) in pkginfo.items()` loop of
`utils.get_pkg_list`: starting from `newpkginfo = dict(oldpkginfo)` (the
first accumulator argument), each new field overwrites, except that the
pre/post-install fields are first prefixed with the old action list. -/
def mergeInfoLoop (oldpkginfo : PkgInfo) : PkgInfo → PkgInfo → Option PkgInfo
  | acc, [] => some acc
  | acc, (infokey, infovalue) :: rest =>
      if infokey = PRE_INSTALL ∨ infokey = POST_INSTALL then
        match pvAdd (oldInstallList oldpkginfo infokey) infovalue with
        | some v2 => mergeInfoLoop oldpkginfo (dset acc infokey v2) rest
        | none => none
      else mergeInfoLoop oldpkginfo (dset acc infokey infovalue) rest

/-- The `for (pkgname, pkginfo) in distro_pkgs.items()` loop of
`utils.get_pkg_list`: starting from `combined = dict(all_pkgs)` (the first
accumulator argument), a package already known is merged field-wise via
`mergeInfoLoop`, a new package is copied wholesale.  Membership is tested
against `all_pkgs`, not the growing accumulator, exactly as in the source. -/
def combineFileLoop (all_pkgs : PkgSet) : PkgSet → PkgSet → Option PkgSet
  | combined, [] => some combined
  | combined, (pkgname, pkginfo) :: rest =>
      if (dget all_pkgs pkgname).isSome then
        let oldpkginfo := (dget all_pkgs pkgname).getD []
        match mergeInfoLoop oldpkginfo oldpkginfo pkginfo with
        | some newpkginfo =>
            combineFileLoop all_pkgs (dset combined pkgname newpkginfo) rest
        | none => none
      else combineFileLoop all_pkgs (dset combined pkgname pkginfo) rest

/-- The per-file loop of `utils.get_pkg_list`: each manifest file contributes
its sub-dict for the given distro when present and non-empty. -/
def pkgListLoop (distro : String) : PkgSet → List PkgManifest → Option PkgSet
  | all_pkgs, [] => some all_pkgs
  | all_pkgs, js :: rest =>
      match dget js distro with
      | some distro_pkgs =>
          if distro_pkgs = [] then pkgListLoop distro all_pkgs rest
          else
            match combineFileLoop all_pkgs all_pkgs distro_pkgs with
            | some combined => pkgListLoop distro combined rest
            | none => none
      | none => pkgListLoop distro all_pkgs rest

/-- Embedding of `utils.get_pkg_list` with the manifest files already loaded (the
file-system and JSON-parsing side of `load_json` is an external boundary;
`constants.PKG_MAP.get(component)` is the `Option` argument, `none` meaning
the component declares no manifest files). -/
def get_pkg_list (distro : String) (fns : Option (List PkgManifest)) : Option PkgSet :=
  match fns with
  | none => some []
  | some files => pkgListLoop distro [] files

/-- A packaging backend instance: apt or yum constructed over a distro. -/
inductive Packager where
  | AptPackager : String → Packager
  | YumPackager : String → Packager
deriving DecidableEq

/-- Modelled from the spec: the Debian-family distro identifier constant
`constants.UBUNTU11` (constants.py is not among the provided sources; only
its distinctness from `RHEL6` matters). -/
def UBUNTU11 : String := "ubuntu11"

/-- Modelled from the spec: the Red-Hat-family distro identifier constant
`constants.RHEL6` (constants.py is not among the provided sources). -/
def RHEL6 : String := "rhel6"

/-- The two-entry `PKGR_MAP` of `utils.get_pkg_manager`. -/
def PKGR_MAP : List (String × (String → Packager)) :=
  [(UBUNTU11, Packager.AptPackager), (RHEL6, Packager.YumPackager)]

/-- Embedding of `utils.get_pkg_manager`: looks the distro up in the fixed two-entry map
and calls the resulting class unguarded; a lookup miss leaves `cls = None`
and the call `cls(distro)` raises `TypeError` (modelled as the error case —
the source has no error path of its own). -/
def get_pkg_manager (distro : String) : Except String Packager :=
  match dget PKGR_MAP distro with
  | some cls => Except.ok (cls distro)
  | none => Except.error ("TypeError: NoneType object is not callable")

/-- A shared-parameters bundle as a flat name/value mapping (the helpers that
produce these are external boundaries). -/
abbrev Params := List (String × String)

/-- Observable side effects of the keystone runtime post-start hook. -/
inductive KEffect where
  | sleep : Nat → KEffect
  | init_call : Params → KEffect
  | write_file : String → String → KEffect

/-- A YAML-ish document, for the loaded `init_what.yaml` template. -/
inductive YDoc where
  | str : String → YDoc
  | seq : List YDoc → YDoc
  | map : List (String × YDoc) → YDoc

/-- The environment a `KeystoneRuntime.post_start` invocation runs against.
Fields model the external boundaries of `anvil/components/keystone.py`
(§6 of the spec): the filesystem (`isfile` and the contents map `files`),
the `do-init` option, the configured wait, the four helper bundles, and the
`anvil.utils` template machinery (`load_template`, `yaml.load`,
`param_replace_deep`), each of which may fail. -/
structure KEnv where
  isfile : String → Bool
  files : List (String × String)
  do_init : Bool
  wait_time : Nat
  trace_dir : String
  glance_params : Params
  keystone_params : Params
  nova_params : Params
  quantum_params : Params
  load_template : Except String String
  yaml_load : String → Except String YDoc
  param_replace_deep : YDoc → List (String × Params) → Except String YDoc

/-- Constant `INIT_WHAT_HAPPENED` of keystone.py: the done-marker file name. -/
def INIT_WHAT_HAPPENED : String := "keystone.inited.yaml"

/-- Boundary `sh.joinpths`: path join. -/
def joinpths (a b : String) : String := a ++ "/" ++ b

/-- Embedding of `self.init_fn`, joined from the trace directory and the marker name. -/
def init_fn (env : KEnv) : String := joinpths env.trace_dir INIT_WHAT_HAPPENED

/-- Embedding of `KeystoneRuntime.post_start`: when the done-marker file is absent and the
`do-init` option is set, the hook sleeps, gathers the four shared-parameter
bundles into `cfg`, loads `init_what.yaml`, parses it and resolves its
placeholders — and then line 203 reads the bare name `initial_cfg`, which is
bound neither in the function (the local dict is named `cfg`) nor at module
level, so Python raises `NameError` before the `khelper.Initializer` is ever
constructed and before the marker file is written.  When the marker file
exists, `not sh.isfile(...)` short-circuits the guard and the hook returns
with no effect and the environment unchanged. -/
def post_start (env : KEnv) : Except String (KEnv × List KEffect) :=
  if (!env.isfile (init_fn env)) && env.do_init then
    let cfg : List (String × Params) :=
      [("glance", env.glance_params), ("keystone", env.keystone_params),
       ("nova", env.nova_params), ("quantum", env.quantum_params)]
    match env.load_template with
    | Except.error e => Except.error e
    | Except.ok contents =>
        match env.yaml_load contents with
        | Except.error e => Except.error e
        | Except.ok doc =>
            match env.param_replace_deep doc cfg with
            | Except.error e => Except.error e
            | Except.ok _init_what =>
                Except.error ("NameError: global name initial_cfg is not defined")
  else Except.ok (env, [])

/-- The shared-parameters bundle shape `khelper.get_shared_params` returns,
as consumed by `KeystoneInstaller.env_exports` (an external boundary; the
fields are the entries the driver indexes:
`admin_password`, `demo_tenant`, `demo_user`, `endpoints.public.uri`,
`endpoints.admin.uri`). -/
structure SharedParamsBundle where
  admin_password : String
  demo_tenant : String
  demo_user : String
  public_uri : String
  admin_uri : String

/-- Embedding of `KeystoneInstaller.env_exports`: the environment-variable dict built from
the shared-parameters bundle, in insertion order. -/
def env_exports (params : SharedParamsBundle) : List (String × String) :=
  [("OS_PASSWORD", params.admin_password),
   ("OS_TENANT_NAME", params.demo_tenant),
   ("OS_USERNAME", params.demo_user),
   ("OS_AUTH_URL", params.public_uri),
   ("SERVICE_ENDPOINT", params.admin_uri)]

/-- A concrete runtime environment whose done-marker file exists. -/
def kenvMarkerPresent : KEnv :=
  KEnv.mk (fun _ => true) [(joinpths "t" INIT_WHAT_HAPPENED, "doc")] true 1 "t"
    [] [] [] [] (Except.ok "") (fun _ => Except.ok (YDoc.str ""))
    (fun d _ => Except.ok d)

/-- A concrete runtime environment whose done-marker file is absent, with the
`do-init` option set and template machinery that succeeds. -/
def kenvMarkerAbsent : KEnv :=
  KEnv.mk (fun _ => false) [] true 1 "t"
    [] [] [] [] (Except.ok "tpl") (fun _ => Except.ok (YDoc.str "tpl"))
    (fun d _ => Except.ok d)


theorem pushDeps_sub (table : DepTable) (new_components : Finset String) :
    ∀ (cs active : List String) {x : String}, x ∈ active →
      x ∈ pushDeps table new_components active cs := by
  intro cs
  induction cs with
  | nil => intro active x hx; simpa [pushDeps] using hx
  | cons c cs ih =>
      intro active x hx
      by_cases h : c ∈ new_components ∨ c ∈ active
      · simpa [pushDeps, h] using ih active hx
      · simp only [pushDeps, if_neg h]
        exact ih _ (by simp [hx])

theorem pushDeps_mem (table : DepTable) (new_components : Finset String) :
    ∀ (cs active : List String) {x : String},
      x ∈ pushDeps table new_components active cs → x ∈ active ∨ x ∈ cs := by
  intro cs
  induction cs with
  | nil => intro active x hx; simp [pushDeps] at hx; exact Or.inl hx
  | cons c cs ih =>
      intro active x hx
      by_cases h : c ∈ new_components ∨ c ∈ active
      · simp only [pushDeps, if_pos h] at hx
        rcases ih active hx with h1 | h1
        · exact Or.inl h1
        · exact Or.inr (List.mem_cons_of_mem _ h1)
      · simp only [pushDeps, if_neg h] at hx
        rcases ih _ hx with h1 | h1
        · rcases List.mem_append.mp h1 with h2 | h2
          · exact Or.inl h2
          · simp at h2; subst h2; exact Or.inr (List.mem_cons_self _ _)
        · exact Or.inr (List.mem_cons_of_mem _ h1)

theorem pushDeps_covers (table : DepTable) (new_components : Finset String) :
    ∀ (cs active : List String) {d : String}, d ∈ cs →
      d ∈ new_components ∨ d ∈ pushDeps table new_components active cs := by
  intro cs
  induction cs with
  | nil => intro active d hd; simp at hd
  | cons c cs ih =>
      intro active d hd
      rcases List.mem_cons.mp hd with hd | hd
      · subst hd
        by_cases h : d ∈ new_components ∨ d ∈ active
        · simp only [pushDeps, if_pos h]
          rcases h with h | h
          · exact Or.inl h
          · exact Or.inr (pushDeps_sub table new_components cs active h)
        · simp only [pushDeps, if_neg h]
          exact Or.inr (pushDeps_sub table new_components cs _ (by simp))
      · by_cases h : c ∈ new_components ∨ c ∈ active
        · simp only [pushDeps, if_pos h]
          exact ih active hd
        · simp only [pushDeps, if_neg h]
          exact ih _ hd

theorem pushDeps_nop (table : DepTable) (new_components : Finset String) :
    ∀ (cs active : List String),
      (∀ c ∈ cs, c ∈ new_components ∨ c ∈ active) →
      pushDeps table new_components active cs = active := by
  intro cs
  induction cs with
  | nil => intro active _; rfl
  | cons c cs ih =>
      intro active hall
      have hc : c ∈ new_components ∨ c ∈ active := hall c (List.mem_cons_self _ _)
      simp only [pushDeps, if_pos hc]
      exact ih active (fun x hx => hall x (List.mem_cons_of_mem _ hx))

theorem pushDeps_length (table : DepTable) (new_components : Finset String) :
    ∀ (cs active : List String),
      (pushDeps table new_components active cs).length ≤ active.length + cs.length := by
  intro cs
  induction cs with
  | nil => intro active; simp [pushDeps]
  | cons c cs ih =>
      intro active
      by_cases h : c ∈ new_components ∨ c ∈ active
      · simp only [pushDeps, if_pos h, List.length_cons]
        have := ih active
        omega
      · simp only [pushDeps, if_neg h, List.length_cons]
        have := ih (active ++ [c])
        simp only [List.length_append, List.length_cons, List.length_nil] at this
        omega

theorem mem_maxDepsLen {table : DepTable} {p : String × List String}
    (hp : p ∈ table) : p.2.length ≤ maxDepsLen table := by
  induction table with
  | nil => simp at hp
  | cons q rest ih =>
      rcases List.mem_cons.mp hp with hp | hp
      · subst hp; simp [maxDepsLen]
      · simp only [maxDepsLen, List.foldr_cons]
        exact Nat.le_trans (ih hp) (Nat.le_max_right _ _)

theorem get_dependencies_length_le (table : DepTable) (c : String) :
    (get_dependencies table c).length ≤ maxDepsLen table := by
  unfold get_dependencies
  rw [length_sortStrings]
  cases hv : dget table c with
  | none => simp
  | some v =>
      simpa using mem_maxDepsLen (dget_mem hv)

theorem mem_depUniverse_left {table : DepTable} {components : List String} {c : String}
    (hc : c ∈ components) : c ∈ depUniverse table components := by
  exact Finset.mem_union_left _ (List.mem_toFinset.mpr hc)

theorem mem_depUniverse_table {table : DepTable} (components : List String)
    {c : String} {v : List String} {d : String}
    (hcv : (c, v) ∈ table) (hd : d ∈ v) : d ∈ depUniverse table components := by
  refine Finset.mem_union_right _ ?_
  induction table with
  | nil => simp at hcv
  | cons q rest ih =>
      rcases List.mem_cons.mp hcv with h | h
      · subst h
        exact Finset.mem_union_left _ (List.mem_toFinset.mpr hd)
      · exact Finset.mem_union_right _ (ih h)

theorem get_dependencies_subset_universe {table : DepTable} (components : List String)
    {c d : String} (hd : d ∈ get_dependencies table c) :
    d ∈ depUniverse table components := by
  unfold get_dependencies at hd
  rw [mem_sortStrings] at hd
  cases hv : dget table c with
  | none => rw [hv] at hd; simp at hd
  | some v =>
      rw [hv] at hd
      simp at hd
      exact mem_depUniverse_table components (dget_mem hv) hd

/-- The fixed-point loop invariant of `resolve_dependencies` is preserved by
one iteration: every component already in the (grown) result set has all its
dependencies in the result set or on the (grown) work list. -/
theorem resolve_fp_preserved (table : DepTable) (new_components : Finset String)
    (curr : String) (rest : List String)
    (hFP : ∀ c ∈ new_components, ∀ d ∈ get_dependencies table c,
      d ∈ new_components ∨ d ∈ rest ++ [curr]) :
    ∀ c ∈ insert curr new_components, ∀ d ∈ get_dependencies table c,
      d ∈ insert curr new_components ∨
        d ∈ pushDeps table (insert curr new_components) rest (get_dependencies table curr) := by
  intro c hc d hd
  rcases Finset.mem_insert.mp hc with hc | hc
  · subst hc
    exact pushDeps_covers table _ _ rest hd
  · rcases hFP c hc d hd with h | h
    · exact Or.inl (Finset.mem_insert_of_mem h)
    · rcases List.mem_append.mp h with h | h
      · exact Or.inr (pushDeps_sub table _ _ rest h)
      · simp at h; subst h
        exact Or.inl (Finset.mem_insert_self _ _)

theorem get_dependencies_mem_of {table : DepTable} {U : Finset String}
    (hU : ∀ p ∈ table, ∀ d ∈ p.2, d ∈ U) {c d : String}
    (hd : d ∈ get_dependencies table c) : d ∈ U := by
  unfold get_dependencies at hd
  rw [mem_sortStrings] at hd
  cases hv : dget table c with
  | none => rw [hv] at hd; simp at hd
  | some v =>
      rw [hv] at hd
      simp at hd
      exact hU (c, v) (dget_mem hv) d hd

theorem resolveLoop_nil (table : DepTable) (fuel : Nat) (new_components : Finset String) :
    resolveLoop table fuel [] new_components = some new_components := by
  cases fuel <;> rfl

theorem resolveLoop_cons (table : DepTable) (fuel : Nat) (a : String) (as : List String)
    (new_components : Finset String) :
    resolveLoop table (fuel + 1) (a :: as) new_components =
      resolveLoop table fuel
        (pushDeps table (insert ((a :: as).getLast (by simp)) new_components)
          ((a :: as).dropLast)
          (get_dependencies table ((a :: as).getLast (by simp))))
        (insert ((a :: as).getLast (by simp)) new_components) := rfl

/-- Sufficiency of the fuel: as long as the measure
`card (U minus result) * (maxDepsLen + 1) + length of work list` is below the
remaining fuel and the loop invariants hold, `resolveLoop` reaches the empty
work list, i.e. the Python `while` loop terminates. -/
theorem resolveLoop_isSome (table : DepTable) (U : Finset String)
    (hU : ∀ p ∈ table, ∀ d ∈ p.2, d ∈ U) :
    ∀ (fuel : Nat) (active : List String) (new_components : Finset String),
      (∀ a ∈ active, a ∈ U) →
      (∀ c ∈ new_components, ∀ d ∈ get_dependencies table c,
        d ∈ new_components ∨ d ∈ active) →
      (U \ new_components).card * (maxDepsLen table + 1) + active.length < fuel →
      (resolveLoop table fuel active new_components).isSome := by
  intro fuel
  induction fuel with
  | zero => intro active new_components _ _ hm; omega
  | succ fuel ih =>
      intro active new_components hA hFP hm
      rcases active with _ | ⟨a, as⟩
      · rw [resolveLoop_nil]; rfl
      · rw [resolveLoop_cons]
        have hne : (a :: as) ≠ [] := by simp
        set curr := (a :: as).getLast (by simp) with hcurr_def
        set rest := (a :: as).dropLast with hrest_def
        have hsplit : rest ++ [curr] = a :: as :=
          List.dropLast_append_getLast hne
        have hmem_iff : ∀ x : String, x ∈ (a :: as) ↔ x ∈ rest ∨ x = curr := by
          intro x
          rw [← hsplit, List.mem_append, List.mem_singleton]
        have hrest_len : rest.length = as.length := by
          rw [hrest_def, List.length_dropLast]; rfl
        have hrestU : ∀ x ∈ rest, x ∈ U := by
          intro x hx
          exact hA x ((hmem_iff x).mpr (Or.inl hx))
        have hFP' : ∀ c ∈ new_components, ∀ d ∈ get_dependencies table c,
            d ∈ new_components ∨ d ∈ rest ++ [curr] := by
          intro c hc d hd
          rcases hFP c hc d hd with h | h
          · exact Or.inl h
          · exact Or.inr (by rw [hsplit]; exact h)
        have hFPnext := resolve_fp_preserved table new_components curr rest hFP'
        have hmlen : (a :: as).length = as.length + 1 := rfl
        by_cases hcin : curr ∈ new_components
        · -- the popped component was already visited: nothing gets queued
          have hadd : insert curr new_components = new_components :=
            Finset.insert_eq_self.mpr hcin
          have hpush : pushDeps table (insert curr new_components) rest
              (get_dependencies table curr) = rest := by
            apply pushDeps_nop
            intro c hc
            rcases hFP' curr hcin c hc with h | h
            · exact Or.inl (by rw [hadd]; exact h)
            · rcases List.mem_append.mp h with h | h
              · exact Or.inr h
              · simp at h; subst h
                exact Or.inl (Finset.mem_insert_self _ _)
          rw [hpush]
          apply ih
          · exact hrestU
          · intro c hc d hd
            rcases hFPnext c hc d hd with h | h
            · exact Or.inl h
            · exact Or.inr (by rw [← hpush]; exact h)
          · rw [hadd, hrest_len]
            rw [hmlen] at hm
            omega
        · -- a fresh component enters the result set: the uncovered part of U shrinks
          have hcurrU : curr ∈ U := hA curr ((hmem_iff curr).mpr (Or.inr rfl))
          have hcd : curr ∈ U \ new_components := Finset.mem_sdiff.mpr ⟨hcurrU, hcin⟩
          have hkpos : 0 < (U \ new_components).card := Finset.card_pos.mpr ⟨curr, hcd⟩
          have hcard : (U \ insert curr new_components).card =
              (U \ new_components).card - 1 := by
            rw [Finset.sdiff_insert, Finset.card_erase_of_mem hcd]
          apply ih
          · intro x hx
            rcases pushDeps_mem table _ _ rest hx with h | h
            · exact hrestU x h
            · exact get_dependencies_mem_of hU h
          · exact hFPnext
          · -- measure strictly decreases
            set B := maxDepsLen table with hB
            set k := (U \ new_components).card with hk
            have hlen' : (pushDeps table (insert curr new_components) rest
                (get_dependencies table curr)).length ≤ as.length + B := by
              have h1 := pushDeps_length table (insert curr new_components)
                (get_dependencies table curr) rest
              have h2 := get_dependencies_length_le table curr
              rw [hrest_len] at h1
              omega
            have hmul : k * (B + 1) = (k - 1) * (B + 1) + (B + 1) := by
              have hk1 : k = (k - 1) + 1 := (Nat.succ_pred_eq_of_pos hkpos).symm
              conv_lhs => rw [hk1]
              ring
            have hmle : k * (B + 1) + as.length < fuel + 1 := by
              rw [hmlen] at hm
              omega
            have hX : (k - 1) * (B + 1) + as.length + B + 1 < fuel + 1 := by
              calc (k - 1) * (B + 1) + as.length + B + 1
                  = ((k - 1) * (B + 1) + (B + 1)) + as.length := by ring
                _ = k * (B + 1) + as.length := by rw [← hmul]
                _ < fuel + 1 := hmle
            calc (U \ insert curr new_components).card * (B + 1) +
                  (pushDeps table (insert curr new_components) rest
                    (get_dependencies table curr)).length
                ≤ (k - 1) * (B + 1) + (as.length + B) := by
                  rw [hcard]
                  exact Nat.add_le_add_left hlen' _
              _ < fuel := by omega

/-- Soundness of the loop: whatever set the loop returns contains everything
that was in the result set or on the work list, and is closed under
`get_dependencies`. -/
theorem resolveLoop_spec (table : DepTable) :
    ∀ (fuel : Nat) (active : List String) (new_components r : Finset String),
      resolveLoop table fuel active new_components = some r →
      (∀ c ∈ new_components, ∀ d ∈ get_dependencies table c,
        d ∈ new_components ∨ d ∈ active) →
      (∀ x ∈ new_components, x ∈ r) ∧ (∀ x ∈ active, x ∈ r) ∧
        (∀ c ∈ r, ∀ d ∈ get_dependencies table c, d ∈ r) := by
  intro fuel
  induction fuel with
  | zero =>
      intro active new_components r hr hFP
      rcases active with _ | ⟨a, as⟩
      · rw [resolveLoop_nil] at hr
        injection hr with hr
        subst hr
        refine ⟨fun x hx => hx, by simp, ?_⟩
        intro c hc d hd
        rcases hFP c hc d hd with h | h
        · exact h
        · simp at h
      · simp [resolveLoop] at hr
  | succ fuel ih =>
      intro active new_components r hr hFP
      rcases active with _ | ⟨a, as⟩
      · rw [resolveLoop_nil] at hr
        injection hr with hr
        subst hr
        refine ⟨fun x hx => hx, by simp, ?_⟩
        intro c hc d hd
        rcases hFP c hc d hd with h | h
        · exact h
        · simp at h
      · rw [resolveLoop_cons] at hr
        have hne : (a :: as) ≠ [] := by simp
        set curr := (a :: as).getLast (by simp) with hcurr_def
        set rest := (a :: as).dropLast with hrest_def
        have hsplit : rest ++ [curr] = a :: as :=
          List.dropLast_append_getLast hne
        have hFP' : ∀ c ∈ new_components, ∀ d ∈ get_dependencies table c,
            d ∈ new_components ∨ d ∈ rest ++ [curr] := by
          intro c hc d hd
          rcases hFP c hc d hd with h | h
          · exact Or.inl h
          · exact Or.inr (by rw [hsplit]; exact h)
        have hFPnext := resolve_fp_preserved table new_components curr rest hFP'
        obtain ⟨hnew, hact, hclosed⟩ := ih _ _ r hr hFPnext
        refine ⟨?_, ?_, hclosed⟩
        · intro x hx
          exact hnew x (Finset.mem_insert_of_mem hx)
        · intro x hx
          rw [← hsplit] at hx
          rcases List.mem_append.mp hx with h | h
          · exact hact x (pushDeps_sub table _ _ rest h)
          · simp at h; subst h
            exact hnew curr (Finset.mem_insert_self _ _)

theorem resolve_dependencies_runs (table : DepTable) (components : List String) :
    resolveLoop table (resolveFuel table components) components ∅ =
      some (resolve_dependencies table components) := by
  have h := resolveLoop_isSome table (depUniverse table components)
    (fun p hp d hd => by
      obtain ⟨c, v⟩ := p
      exact mem_depUniverse_table components hp hd)
    (resolveFuel table components) components ∅
    (fun a ha => mem_depUniverse_left ha)
    (by simp)
    (by
      unfold resolveFuel
      simp)
  obtain ⟨r, hr⟩ := Option.isSome_iff_exists.mp h
  rw [hr]
  unfold resolve_dependencies
  rw [hr]
  rfl

/-- Fuel monotonicity: once the loop finishes within some fuel, any larger
fuel gives the same answer. -/
theorem resolveLoop_mono (table : DepTable) :
    ∀ (fuel fuel' : Nat) (active : List String) (new_components r : Finset String),
      fuel ≤ fuel' →
      resolveLoop table fuel active new_components = some r →
      resolveLoop table fuel' active new_components = some r := by
  intro fuel
  induction fuel with
  | zero =>
      intro fuel' active new_components r _ hr
      rcases active with _ | ⟨a, as⟩
      · rw [resolveLoop_nil] at hr ⊢; exact hr
      · simp [resolveLoop] at hr
  | succ fuel ih =>
      intro fuel' active new_components r hle hr
      rcases active with _ | ⟨a, as⟩
      · rw [resolveLoop_nil] at hr ⊢; exact hr
      · rcases fuel' with _ | fuel'
        · omega
        · rw [resolveLoop_cons] at hr ⊢
          exact ih fuel' _ _ r (Nat.le_of_succ_le_succ hle) hr

/-- C1: for every input collection of component names and every dependency
table, the set returned by `resolve_dependencies` contains every element of
the input, and for every component `c` in the returned set every declared
dependency of `c` is also in the returned set (the result is a superset of
the input and a fixed point of the dependency relation). -/
theorem c1_resolve_dependencies_closure (table : DepTable) (components : List String) :
    (∀ c ∈ components, c ∈ resolve_dependencies table components) ∧
    (∀ c ∈ resolve_dependencies table components,
      ∀ d ∈ get_dependencies table c, d ∈ resolve_dependencies table components) := by
  have hrun := resolve_dependencies_runs table components
  have h := resolveLoop_spec table (resolveFuel table components) components ∅
    (resolve_dependencies table components) hrun (by simp)
  exact ⟨h.2.1, h.2.2⟩

/-- Witness for C1 at a concrete table and input. -/
theorem c1_witness :
    ("nova" ∈ ["nova"] ∧
      "nova" ∈ resolve_dependencies [("nova", ["db", "keystone"]), ("keystone", ["db"])]
        ["nova"]) ∧
    ("db" ∈ get_dependencies [("nova", ["db", "keystone"]), ("keystone", ["db"])] "nova" ∧
      "db" ∈ resolve_dependencies [("nova", ["db", "keystone"]), ("keystone", ["db"])]
        ["nova"]) := by
  have h := c1_resolve_dependencies_closure
    [("nova", ["db", "keystone"]), ("keystone", ["db"])] ["nova"]
  have hn : "nova" ∈ resolve_dependencies
      [("nova", ["db", "keystone"]), ("keystone", ["db"])] ["nova"] :=
    h.1 "nova" (by decide)
  exact ⟨⟨by decide, hn⟩, by decide, h.2 "nova" hn "db" (by decide)⟩

/-- C8: `resolve_dependencies` terminates for every finite input list and
finite dependency table, cycles included: with any fuel at least
`resolveFuel` (a bound computed from the finitely many names in play), the
work list empties and the loop returns its result — a component already in
the result set or already queued is never re-queued, which is what makes the
measure decrease. -/
theorem c8_resolve_dependencies_terminates (table : DepTable) (components : List String) :
    ∀ fuel : Nat, resolveFuel table components ≤ fuel →
      resolveLoop table fuel components ∅ = some (resolve_dependencies table components) := by
  intro fuel hf
  exact resolveLoop_mono table _ fuel _ _ _ hf (resolve_dependencies_runs table components)

/-- Witness for C8 on a cyclic dependency table. -/
theorem c8_witness :
    resolveFuel [("a", ["b"]), ("b", ["a"])] ["a"] ≤
        resolveFuel [("a", ["b"]), ("b", ["a"])] ["a"] ∧
      resolveLoop [("a", ["b"]), ("b", ["a"])]
          (resolveFuel [("a", ["b"]), ("b", ["a"])] ["a"]) ["a"] ∅ =
        some (resolve_dependencies [("a", ["b"]), ("b", ["a"])] ["a"]) :=
  ⟨Nat.le_refl _,
    c8_resolve_dependencies_terminates [("a", ["b"]), ("b", ["a"])] ["a"] _ (Nat.le_refl _)⟩

/-- C3: when the done-marker file already exists, the keystone runtime
post-start hook performs no wait, no shared-parameter gathering, no
initializer call and no file write, and leaves the state (including the
marker file contents) unchanged. -/
theorem c3_post_start_marker_present (env : KEnv)
    (h : env.isfile (init_fn env) = true) :
    post_start env = Except.ok (env, []) := by
  unfold post_start
  rw [h]
  simp

/-- Witness for C3 at a concrete environment. -/
theorem c3_witness :
    kenvMarkerPresent.isfile (init_fn kenvMarkerPresent) = true ∧
      post_start kenvMarkerPresent = Except.ok (kenvMarkerPresent, []) :=
  ⟨rfl, c3_post_start_marker_present kenvMarkerPresent rfl⟩

/-- C2 (code bug): on a post-start invocation with the done-marker absent and
`do-init` enabled, after the template is loaded, parsed and resolved the code
evaluates `initial_cfg['keystone']` — but no name `initial_cfg` is bound
(the local dict built two lines earlier is named `cfg`), so Python raises
`NameError`: the identity-service initializer is never invoked and the
marker file is never written, contradicting the claimed sequence. -/
theorem c2_post_start_nameerror (env : KEnv)
    (hmarker : env.isfile (init_fn env) = false)
    (hinit : env.do_init = true)
    (contents : String) (hload : env.load_template = Except.ok contents)
    (doc : YDoc) (hyaml : env.yaml_load contents = Except.ok doc)
    (resolved : YDoc)
    (hrepl : env.param_replace_deep doc
      [("glance", env.glance_params), ("keystone", env.keystone_params),
       ("nova", env.nova_params), ("quantum", env.quantum_params)] = Except.ok resolved) :
    post_start env = Except.error ("NameError: global name initial_cfg is not defined") := by
  unfold post_start
  simp only [hmarker, hinit, Bool.not_false, Bool.and_self, if_true, hload, hyaml, hrepl]

/-- Witness for C2 at a concrete environment. -/
theorem c2_witness :
    kenvMarkerAbsent.isfile (init_fn kenvMarkerAbsent) = false ∧
      kenvMarkerAbsent.do_init = true ∧
      kenvMarkerAbsent.load_template = Except.ok "tpl" ∧
      kenvMarkerAbsent.yaml_load "tpl" = Except.ok (YDoc.str "tpl") ∧
      kenvMarkerAbsent.param_replace_deep (YDoc.str "tpl")
        [("glance", kenvMarkerAbsent.glance_params),
         ("keystone", kenvMarkerAbsent.keystone_params),
         ("nova", kenvMarkerAbsent.nova_params),
         ("quantum", kenvMarkerAbsent.quantum_params)] = Except.ok (YDoc.str "tpl") ∧
      post_start kenvMarkerAbsent =
        Except.error ("NameError: global name initial_cfg is not defined") :=
  ⟨rfl, rfl, rfl, rfl, rfl,
    c2_post_start_nameerror kenvMarkerAbsent rfl rfl "tpl" rfl (YDoc.str "tpl") rfl
      (YDoc.str "tpl") rfl⟩

/-- C9: `env_exports`, evaluated against any shared-parameters bundle,
returns a mapping whose key set is exactly
OS_PASSWORD, OS_TENANT_NAME, OS_USERNAME, OS_AUTH_URL, SERVICE_ENDPOINT,
bound respectively to the bundle's administrative password, demo tenant
name, demo user name, public endpoint URI and admin endpoint URI. -/
theorem c9_env_exports_keys (params : SharedParamsBundle) :
    (env_exports params).map Prod.fst =
      ["OS_PASSWORD", "OS_TENANT_NAME", "OS_USERNAME", "OS_AUTH_URL", "SERVICE_ENDPOINT"] ∧
    dget (env_exports params) "OS_PASSWORD" = some params.admin_password ∧
    dget (env_exports params) "OS_TENANT_NAME" = some params.demo_tenant ∧
    dget (env_exports params) "OS_USERNAME" = some params.demo_user ∧
    dget (env_exports params) "OS_AUTH_URL" = some params.public_uri ∧
    dget (env_exports params) "SERVICE_ENDPOINT" = some params.admin_uri := by
  refine ⟨rfl, ?_, ?_, ?_, ?_, ?_⟩ <;> simp [env_exports, dget]

/-- C6: `get_pkg_manager` maps exactly the two known distro identifiers to
their packaging backends (Ubuntu to apt, RHEL to yum); for every other
distro the table lookup yields no backend and the unguarded construction
step fails (TypeError) rather than returning a value or a defined error. -/
theorem c6_get_pkg_manager_table (distro : String) :
    get_pkg_manager UBUNTU11 = Except.ok (Packager.AptPackager UBUNTU11) ∧
    get_pkg_manager RHEL6 = Except.ok (Packager.YumPackager RHEL6) ∧
    (distro ≠ UBUNTU11 → distro ≠ RHEL6 →
      get_pkg_manager distro = Except.error ("TypeError: NoneType object is not callable")) := by
  refine ⟨rfl, rfl, ?_⟩
  intro h1 h2
  have e1 : dget PKGR_MAP distro = none := by
    unfold PKGR_MAP
    simp only [dget]
    rw [if_neg (fun h => h1 h.symm), if_neg (fun h => h2 h.symm)]
  unfold get_pkg_manager
  rw [e1]

/-- Witness for C6 at a concrete unknown distro. -/
theorem c6_witness :
    "fedora16" ≠ UBUNTU11 ∧ "fedora16" ≠ RHEL6 ∧
      get_pkg_manager "fedora16" =
        Except.error ("TypeError: NoneType object is not callable") :=
  ⟨by decide, by decide,
    (c6_get_pkg_manager_table "fedora16").2.2 (by decide) (by decide)⟩

/-- Scanning a run of word characters extends the open placeholder
accumulator. -/
theorem paramSub_accum (reps : List (String × String)) (ig : Bool) :
    ∀ (w : List Char), (∀ c ∈ w, wordChar c = true) →
    ∀ (u rest : List Char),
      paramSub reps ig (some u) (w ++ rest) = paramSub reps ig (some (u ++ w)) rest := by
  intro w
  induction w with
  | nil => intro _ u rest; simp
  | cons c cs ih =>
      intro hw u rest
      have hc : wordChar c = true := hw c (List.mem_cons_self _ _)
      rw [List.cons_append]
      simp only [paramSub, hc, if_true]
      rw [ih (fun x hx => hw x (List.mem_cons_of_mem _ hx)) (u ++ [c]) rest]
      rw [← List.append_cons]

/-- C4: `param_replace` replaces each `%NAME%` placeholder that has a
replacement with the replacement; a placeholder with no replacement is left
unchanged when `ignore_missing` is true and raises a missing-parameter
failure naming the placeholder when it is false — shown in general for a
single-placeholder template over any nonempty replacement mapping, and on
the spec's three concrete round-trip cases. -/
theorem c4_param_replace :
    (∀ (reps : List (String × String)) (ig : Bool) (w : List Char),
      reps ≠ [] → w ≠ [] → (∀ c ∈ w, wordChar c = true) →
      param_replace (String.mk ('%' :: (w ++ ['%']))) reps ig =
        match dget reps (String.mk w) with
        | some v => Except.ok v
        | none =>
            if ig then Except.ok (String.mk ('%' :: (w ++ ['%'])))
            else Except.error ("No replacement found for parameter %" ++ String.mk w ++ "%")) ∧
    param_replace "%FOO%-%BAR%" [("FOO", "1"), ("BAR", "2")] false = Except.ok "1-2" ∧
    param_replace "%FOO%-%BAR%" [("FOO", "1")] false =
      Except.error ("No replacement found for parameter %BAR%") ∧
    param_replace "%FOO%-%BAR%" [("FOO", "1")] true = Except.ok "1-%BAR%" := by
  refine ⟨?_, rfl, rfl, rfl⟩
  intro reps ig w hreps hw hword
  unfold param_replace
  rw [if_neg hreps, if_neg (by simp)]
  have h1 : paramSub reps ig none ('%' :: (w ++ ['%'])) =
      paramSub reps ig (some []) (w ++ ['%']) := by
    simp [paramSub]
  rw [show (String.mk ('%' :: (w ++ ['%']))).data = '%' :: (w ++ ['%']) from rfl]
  rw [h1, paramSub_accum reps ig w hword [] ['%']]
  simp only [List.nil_append]
  have hpc : wordChar '%' = false := rfl
  simp only [paramSub, hpc, Bool.false_eq_true, if_false, if_pos rfl, if_neg hw]
  cases hd : dget reps (String.mk w) with
  | some v =>
      simp [paramSub, Except.map]
  | none =>
      cases ig
      · simp [Except.map]
      · simp [paramSub, Except.map]

/-- Witness for C4 at a concrete single-placeholder template. -/
theorem c4_witness :
    ([("FOO", "1")] : List (String × String)) ≠ [] ∧
      (['B', 'A', 'R'] : List Char) ≠ [] ∧
      (∀ c ∈ (['B', 'A', 'R'] : List Char), wordChar c = true) ∧
      param_replace (String.mk ('%' :: (['B', 'A', 'R'] ++ ['%']))) [("FOO", "1")] true =
        Except.ok (String.mk ('%' :: (['B', 'A', 'R'] ++ ['%']))) := by
  have h := c4_param_replace.1 [("FOO", "1")] true ['B', 'A', 'R']
    (by decide) (by decide) (by decide)
  exact ⟨by decide, by decide, by decide, by simpa [dget] using h⟩

theorem dget_append {α β : Type} [DecidableEq α] (d1 d2 : List (α × β)) (k : α) :
    dget (d1 ++ d2) k =
      match dget d1 k with
      | some v => some v
      | none => dget d2 k := by
  induction d1 with
  | nil => simp [dget]
  | cons p rest ih =>
      obtain ⟨k0, v0⟩ := p
      by_cases hk : k0 = k
      · simp [dget, hk]
      · simp [dget, hk, ih]

theorem dset_append_of_dget_none {α β : Type} [DecidableEq α]
    (d : List (α × β)) (k : α) (v : β) (h : dget d k = none) :
    dset d k v = d ++ [(k, v)] := by
  induction d with
  | nil => simp [dset]
  | cons p rest ih =>
      obtain ⟨k0, v0⟩ := p
      by_cases hk : k0 = k
      · simp [dget, hk] at h
      · simp [dget, hk] at h
        simp [dset, hk, ih h]

/-- Building the assume-all fallback dict over distinct component names gives
one empty-option entry per name, in order. -/
theorem foldl_dset_nil :
    ∀ (reg : List String) (acc : List (String × List String)),
      (∀ c ∈ reg, dget acc c = none) → reg.Nodup →
      reg.foldl (fun m c => dset m c ([] : List String)) acc =
        acc ++ reg.map (fun c => (c, [])) := by
  intro reg
  induction reg with
  | nil => intro acc _ _; simp
  | cons c cs ih =>
      intro acc hnone hnd
      have hc : dget acc c = none := hnone c (List.mem_cons_self _ _)
      rw [List.foldl_cons, dset_append_of_dget_none acc c [] hc]
      rw [ih (acc ++ [(c, [])]) ?hnone2 (List.Nodup.of_cons hnd)]
      · simp
      case hnone2 =>
        intro x hx
        rw [dget_append]
        rw [hnone x (List.mem_cons_of_mem _ hx)]
        have hxc : ¬ c = x := by
          intro hh
          subst hh
          exact (List.nodup_cons.mp hnd).1 hx
        simp [dget, hxc]

/-- C7: `parse_components` maps each raw `name(opt1,opt2,...)` entry to the
lowercased trimmed name with its trimmed non-empty options, drops entries
with unregistered names and unparseable entries rather than failing, and
with zero accepted entries and the assume-all flag set returns every
registered component name mapped to an empty option list. -/
theorem c7_parse_components :
    parse_components (some ["nova(a, b)", "bogus!!", "keystone"]) false ["nova", "keystone"] =
      [("nova", ["a", "b"]), ("keystone", [])] ∧
    parse_components (some []) true ["x", "y"] = [("x", []), ("y", [])] ∧
    (∀ reg : List String, reg.Nodup →
      parse_components (some []) true reg = reg.map (fun c => (c, []))) := by
  refine ⟨by decide, by decide, ?_⟩
  intro reg hnd
  unfold parse_components
  simp only [Option.getD, List.foldl_nil, if_pos (And.intro rfl rfl)]
  simpa using foldl_dset_nil reg [] (fun c _ => rfl) hnd

/-- Witness for C7 at a concrete registry. -/
theorem c7_witness :
    (["db", "keystone"] : List String).Nodup ∧
      parse_components (some []) true ["db", "keystone"] =
        [("db", []), ("keystone", [])] :=
  ⟨by decide, c7_parse_components.2.2 ["db", "keystone"] (by decide)⟩

/-- C10: `parse_components` accepts `None` as its components argument and
treats it as an empty selection: with assume-all unset it returns the empty
mapping, and with assume-all set it returns every registered component name
mapped to an empty option list, in both cases without raising. -/
theorem c10_parse_components_none (reg : List String) :
    parse_components none false reg = [] ∧
    (reg.Nodup → parse_components none true reg = reg.map (fun c => (c, []))) := by
  constructor
  · unfold parse_components
    simp
  · intro hnd
    unfold parse_components
    simp only [Option.getD, List.foldl_nil, if_pos (And.intro rfl rfl)]
    simpa using foldl_dset_nil reg [] (fun c _ => rfl) hnd

/-- Witness for C10 at a concrete registry. -/
theorem c10_witness :
    parse_components none false ["glance", "nova"] = [] ∧
      (["glance", "nova"] : List String).Nodup ∧
      parse_components none true ["glance", "nova"] = [("glance", []), ("nova", [])] :=
  ⟨(c10_parse_components_none ["glance", "nova"]).1, by decide,
    (c10_parse_components_none ["glance", "nova"]).2 (by decide)⟩

theorem dget_eq_none_of_not_mem_keys {β : Type} (d : List (String × β)) (k : String)
    (h : k ∉ d.map Prod.fst) : dget d k = none := by
  induction d with
  | nil => rfl
  | cons p rest ih =>
      obtain ⟨k0, v0⟩ := p
      rw [List.map_cons] at h
      have h1 : ¬ k0 = k := fun hh => h (by rw [hh]; exact List.mem_cons_self _ _)
      have h2 : k ∉ rest.map Prod.fst := fun hh => h (List.mem_cons_of_mem _ hh)
      simp [dget, h1, ih h2]

/-- Field-wise behaviour of the `get_pkg_list` entry merge: a field absent
from the later entry keeps the accumulator value, an ordinary field takes the
later value, and a pre/post-install field is the Python `+` of the old
action list (or `[]`) with the new value. -/
theorem mergeInfoLoop_dget (old : PkgInfo) :
    ∀ (entries acc m : PkgInfo),
      mergeInfoLoop old acc entries = some m →
      (entries.map Prod.fst).Nodup →
      ∀ k : String,
        (dget entries k = none → dget m k = dget acc k) ∧
        (∀ v, dget entries k = some v → ¬(k = PRE_INSTALL ∨ k = POST_INSTALL) →
          dget m k = some v) ∧
        (∀ v, dget entries k = some v → (k = PRE_INSTALL ∨ k = POST_INSTALL) →
          ∃ v2, pvAdd (oldInstallList old k) v = some v2 ∧ dget m k = some v2) := by
  intro entries
  induction entries with
  | nil =>
      intro acc m hm _ k
      simp [mergeInfoLoop] at hm
      subst hm
      exact ⟨fun _ => rfl, fun v hv => by simp [dget] at hv, fun v hv => by simp [dget] at hv⟩
  | cons p rest ih =>
      intro acc m hm hnd k
      obtain ⟨j, w⟩ := p
      have hndr : (rest.map Prod.fst).Nodup := (List.nodup_cons.mp (by simpa using hnd)).2
      have hjrest : j ∉ rest.map Prod.fst := (List.nodup_cons.mp (by simpa using hnd)).1
      by_cases hjp : j = PRE_INSTALL ∨ j = POST_INSTALL
      · -- pre/post-install key: old action list is prefixed
        simp only [mergeInfoLoop, if_pos hjp] at hm
        cases hadd : pvAdd (oldInstallList old j) w with
        | none => rw [hadd] at hm; simp at hm
        | some v2 =>
            rw [hadd] at hm
            simp only [] at hm
            have IH := ih (dset acc j v2) m hm hndr
            by_cases hkj : k = j
            · subst hkj
              refine ⟨?_, ?_, ?_⟩
              · intro hnone; simp [dget] at hnone
              · intro v hv hnp
                exact absurd hjp hnp
              · intro v hv _
                have hvw : w = v := by simpa [dget] using hv
                subst hvw
                refine ⟨v2, hadd, ?_⟩
                have h1 := (IH k).1 (dget_eq_none_of_not_mem_keys rest k hjrest)
                rw [h1, dget_dset_self]
            · have hjk : ¬ j = k := fun hh => hkj hh.symm
              have hek : dget ((j, w) :: rest) k = dget rest k := by
                simp [dget, hjk]
              refine ⟨?_, ?_, ?_⟩
              · intro hnone
                rw [hek] at hnone
                rw [(IH k).1 hnone, dget_dset_ne _ _ _ _ hkj]
              · intro v hv hnp
                rw [hek] at hv
                exact (IH k).2.1 v hv hnp
              · intro v hv hp
                rw [hek] at hv
                exact (IH k).2.2 v hv hp
      · -- ordinary key: overwritten by the later value
        simp only [mergeInfoLoop, if_neg hjp] at hm
        have IH := ih (dset acc j w) m hm hndr
        by_cases hkj : k = j
        · subst hkj
          refine ⟨?_, ?_, ?_⟩
          · intro hnone; simp [dget] at hnone
          · intro v hv _
            have hvw : w = v := by simpa [dget] using hv
            subst hvw
            have h1 := (IH k).1 (dget_eq_none_of_not_mem_keys rest k hjrest)
            rw [h1, dget_dset_self]
          · intro v hv hp
            exact absurd hp hjp
        · have hjk : ¬ j = k := fun hh => hkj hh.symm
          have hek : dget ((j, w) :: rest) k = dget rest k := by
            simp [dget, hjk]
          refine ⟨?_, ?_, ?_⟩
          · intro hnone
            rw [hek] at hnone
            rw [(IH k).1 hnone, dget_dset_ne _ _ _ _ hkj]
          · intro v hv hnp
            rw [hek] at hv
            exact (IH k).2.1 v hv hnp
          · intro v hv hp
            rw [hek] at hv
            exact (IH k).2.2 v hv hp

/-- C5: when `get_pkg_list` merges the per-distro package entries of
successive manifest files and the same package name appears in an earlier and
a later file, the merged entry's pre-install and post-install action lists
are the earlier file's list followed by the later file's list, and every
other field of the entry takes the later file's value — shown in general for
the entry-merge loop and on the spec's concrete two-file example through
`get_pkg_list`. -/
theorem c5_get_pkg_list_merge :
    (∀ (old entries m : PkgInfo),
      mergeInfoLoop old old entries = some m →
      (entries.map Prod.fst).Nodup →
      ∀ k : String,
        (∀ v, dget entries k = some v → k ≠ PRE_INSTALL → k ≠ POST_INSTALL →
          dget m k = some v) ∧
        (∀ nl ol, dget entries k = some (PkgVal.list nl) →
          (k = PRE_INSTALL ∨ k = POST_INSTALL) →
          dget old k = some (PkgVal.list ol) →
          dget m k = some (PkgVal.list (ol ++ nl)))) ∧
    get_pkg_list "d"
        (some [[("d", [("p1", [(PRE_INSTALL, PkgVal.list ["x"])])])],
               [("d", [("p1", [(PRE_INSTALL, PkgVal.list ["y"]),
                               ("version", PkgVal.str "2")])])]]) =
      some [("p1", [(PRE_INSTALL, PkgVal.list ["x", "y"]),
                    ("version", PkgVal.str "2")])] := by
  refine ⟨?_, by decide⟩
  intro old entries m hm hnd k
  have H := mergeInfoLoop_dget old entries old m hm hnd k
  refine ⟨?_, ?_⟩
  · intro v hv h1 h2
    exact H.2.1 v hv (by rintro (h | h) <;> [exact h1 h; exact h2 h])
  · intro nl ol hv hp hold
    obtain ⟨v2, hadd, hmk⟩ := H.2.2 (PkgVal.list nl) hv hp
    have holdil : oldInstallList old k = PkgVal.list ol ∨
        (ol = [] ∧ oldInstallList old k = PkgVal.list []) := by
      unfold oldInstallList
      rw [hold]
      by_cases hol : ol = []
      · subst hol; right; exact ⟨rfl, by simp [pvTruthy]⟩
      · left
        simp [pvTruthy, hol]
    rcases holdil with h | ⟨hol, h⟩
    · rw [h] at hadd
      simp [pvAdd] at hadd
      rw [← hadd] at hmk
      exact hmk
    · subst hol
      rw [h] at hadd
      simp [pvAdd] at hadd
      rw [← hadd] at hmk
      simpa using hmk

/-- Witness for C5 at the spec's concrete merge example. -/
theorem c5_witness :
    mergeInfoLoop [(PRE_INSTALL, PkgVal.list ["x"])] [(PRE_INSTALL, PkgVal.list ["x"])]
        [(PRE_INSTALL, PkgVal.list ["y"]), ("version", PkgVal.str "2")] =
      some [(PRE_INSTALL, PkgVal.list ["x", "y"]), ("version", PkgVal.str "2")] ∧
    (([(PRE_INSTALL, PkgVal.list ["y"]), ("version", PkgVal.str "2")] : PkgInfo).map
        (Prod.fst : String × PkgVal → String)).Nodup ∧
    dget [(PRE_INSTALL, PkgVal.list ["y"]), ("version", PkgVal.str "2")] PRE_INSTALL =
      some (PkgVal.list ["y"]) ∧
    dget [(PRE_INSTALL, PkgVal.list ["x"])] PRE_INSTALL = some (PkgVal.list ["x"]) ∧
    dget [(PRE_INSTALL, PkgVal.list ["x", "y"]), ("version", PkgVal.str "2")] PRE_INSTALL =
      some (PkgVal.list (["x"] ++ ["y"])) := by
  refine ⟨by decide, by decide, by decide, by decide, ?_⟩
  exact (c5_get_pkg_list_merge.1 [(PRE_INSTALL, PkgVal.list ["x"])]
      [(PRE_INSTALL, PkgVal.list ["y"]), ("version", PkgVal.str "2")]
      [(PRE_INSTALL, PkgVal.list ["x", "y"]), ("version", PkgVal.str "2")]
      (by decide) (by decide) PRE_INSTALL).2 ["y"] ["x"] (by decide) (Or.inl rfl) (by decide)
